import Mathlib

/-!
Verification of `mask_generator.py` (hashcat mask generator).

The Python source is shallowly embedded below.  Python machine values are
modelled as follows: the character-class markers `'u' 'l' 'd' 's'` become the
inductive type `CharClass`; a mask (a tuple of markers) becomes `List CharClass`;
Python integers become `Nat`/`Int`; Python floats become `ℚ` (exact arithmetic);
the fallible argument parsing of `main` returns `Except`.
`int(math.log(x, 2))` for `x ≥ 1` is floor of log₂, embedded by the
fuel-based, kernel-computable `log2floor` (characterised by `log2floor_spec`).
-/

/-- The four character-class symbols, in the textual order `'ulds'` used by
`type_strings` in the source. -/
inductive CharClass where
  | u
  | l
  | d
  | s
deriving DecidableEq

/-- The hashcat marker character of a class. -/
def symChar : CharClass → Char
  | .u => 'u'
  | .l => 'l'
  | .d => 'd'
  | .s => 's'

/-- A mask: an ordered sequence of character-class symbols. -/
abbrev Mask := List CharClass

/-- `PasswordMask.assess_mask` (lines 34-46): the four class counts, in the
order `[count 'l', count 'u', count 'd', count 's']`; compliant iff at least 3
of them are non-zero. -/
def assess_mask (m : Mask) : Bool :=
  let counts : List Nat := [m.count .l, m.count .u, m.count .d, m.count .s]
  let num_non_zero := counts.length - counts.count 0
  decide (3 ≤ num_non_zero)

/-- Fuel-based floor of log base 2: one halving per fuel unit. -/
def log2floorAux : Nat → Nat → Nat
  | 0, _ => 0
  | fuel + 1, n => if 2 ≤ n then log2floorAux fuel (n / 2) + 1 else 0

/-- `⌊log₂ n⌋` for `n ≥ 1` (and 0 at 0); `n` itself is always enough fuel. -/
def log2floor (n : Nat) : Nat := log2floorAux n n

/-- `PasswordMask.calculate_entropy` (lines 49-66): letter places are the `'l'`
and `'u'` counts combined; combinations is `26^letters · 10^digits ·
30^specials` with each factor multiplied in only when its exponent is
positive; entropy is `int(math.log(combinations, 2))`, i.e. `⌊log₂ _⌋`. -/
def calculate_entropy (m : Mask) : Nat :=
  let count_letter_places := m.count .l + m.count .u
  let count_digit_places := m.count .d
  let count_special_places := m.count .s
  let combinations :=
    (if 0 < count_letter_places then 26 ^ count_letter_places else 1) *
      ((if 0 < count_digit_places then 10 ^ count_digit_places else 1) *
        (if 0 < count_special_places then 30 ^ count_special_places else 1))
  log2floor combinations

/-- Per-symbol adjustment of `calculate_user_friendliness` (lines 78-81):
`-10` for `'u'` or `'s'`, `+2` for `'l'` (two independent `if`s). -/
def ufStep (c : CharClass) : Int :=
  (if c = .u ∨ c = .s then -10 else 0) + (if c = .l then 2 else 0)

/-- The loop of `calculate_user_friendliness` from position 1 on: per-symbol
adjustment plus `+5` whenever the symbol equals its predecessor. -/
def ufGo : CharClass → Mask → Int
  | _, [] => 0
  | prev, c :: rest => ufStep c + (if c = prev then 5 else 0) + ufGo c rest

/-- `PasswordMask.calculate_user_friendliness` (lines 68-88): score starts at
100; position 0 gets no adjacency test (`if i != 0`). -/
def calculate_user_friendliness : Mask → Int
  | [] => 100
  | c :: rest => 100 + ufStep c + ufGo c rest

/-- Risk score from `PasswordMask.__init__` (lines 29-32):
`entropy / friendliness`, with denominator `0.001` when friendliness is
exactly 0. -/
def risk_score (m : Mask) : ℚ :=
  if calculate_user_friendliness m ≠ 0 then
    (calculate_entropy m : ℚ) / (calculate_user_friendliness m : ℚ)
  else
    (calculate_entropy m : ℚ) / (1 / 1000)

/-- `'?'.join(mask)`: the marker characters separated by `'?'`. -/
def joinSepChars : List Char → List Char
  | [] => []
  | [c] => [c]
  | c :: c2 :: rest => c :: '?' :: joinSepChars (c2 :: rest)

/-- `self.mask_string` from `PasswordMask.__init__` (lines 23-24):
`'?' + '?'.join(mask)`. -/
def mask_string (m : Mask) : String :=
  ⟨'?' :: joinSepChars (m.map symChar)⟩

/-- The `PasswordMask` record: the mask plus the four values cached at
construction, and the rendered hashcat string. -/
structure PasswordMask where
  mask : Mask
  entropy : Nat
  compliant : Bool
  user_friendliness : Int
  mask_string : String
  risk_score : ℚ
deriving DecidableEq

/-- `PasswordMask.__init__` (lines 16-32): every field is computed from the
symbol sequence at construction time. -/
def makePasswordMask (m : Mask) : PasswordMask :=
  { mask := m
    entropy := calculate_entropy m
    compliant := assess_mask m
    user_friendliness := calculate_user_friendliness m
    mask_string := mask_string m
    risk_score := risk_score m }

/-- Value of a non-empty digit string. -/
def digitsVal (cs : List Char) : Nat :=
  cs.foldl (fun acc c => 10 * acc + (c.toNat - '0'.toNat)) 0

/-- Strip leading and trailing whitespace. -/
def trimChars (cs : List Char) : List Char :=
  ((cs.dropWhile Char.isWhitespace).reverse.dropWhile Char.isWhitespace).reverse

/-- Python's `int(str)`: optional sign followed by a non-empty digit string
(whitespace stripped); anything else raises `ValueError`. -/
def pyInt (cs : List Char) : Except String Int :=
  let t := trimChars cs
  match t with
  | '-' :: rest =>
    if rest ≠ [] ∧ rest.all Char.isDigit then .ok (-(digitsVal rest : Int))
    else .error "ValueError"
  | '+' :: rest =>
    if rest ≠ [] ∧ rest.all Char.isDigit then .ok (digitsVal rest)
    else .error "ValueError"
  | _ =>
    if t ≠ [] ∧ t.all Char.isDigit then .ok (digitsVal t)
    else .error "ValueError"

/-- Python's `str.split(sep)` for a one-character separator. -/
def splitOnChar (sep : Char) : List Char → List (List Char)
  | [] => [[]]
  | c :: rest =>
    match splitOnChar sep rest with
    | [] => [[]]
    | g :: gs => if c = sep then [] :: g :: gs else (c :: g) :: gs

/-- Argument handling of `main` (lines 93-102): an argument containing `'-'`
is split into exactly two parts, both converted by `int`, and `start < end` is
asserted; otherwise the whole argument is converted and `end = start + 1`.
Errors are the exceptions Python raises at the corresponding line. -/
def parseArg (arg : String) : Except String (Int × Int) :=
  let cs := arg.data
  if cs.contains '-' then
    match splitOnChar '-' cs with
    | [a, b] =>
      match pyInt a, pyInt b with
      | .ok st, .ok en =>
        if st < en then .ok (st, en) else .error "AssertionError"
      | .error e, _ => .error e
      | .ok _, .error e => .error e
    | _ => .error "ValueError: unpack"
  else
    match pyInt cs with
    | .ok n => .ok (n, n + 1)
    | .error e => .error e

/-- Python's `range(a, b)` (line 103): empty when `b ≤ a`. -/
def pyRange (a b : Int) : List Int :=
  (List.range (b - a).toNat).map fun i => a + i

/-- `type_strings = 'ulds'` (line 106): the enumeration alphabet, upper case
first. -/
def type_strings : List CharClass := [.u, .l, .d, .s]

/-- `itertools.product(type_strings, repeat=n)` (line 110): all length-`n`
tuples, first coordinate varying slowest, coordinates drawn in `type_strings`
order. -/
def enumerate : Nat → List Mask
  | 0 => [[]]
  | n + 1 => type_strings.flatMap fun c => (enumerate n).map (c :: ·)

/-- The inner loop of `main` for one length (lines 114-119): build a
`PasswordMask` for every enumerated tuple and keep the compliant ones. -/
def blockOf (n : Nat) : List PasswordMask :=
  ((enumerate n).map makePasswordMask).filter fun pm => pm.compliant

/-- The `compliant_masks` accumulator after processing the given lengths in
order (lines 107-119). -/
def poolOf : List Nat → List PasswordMask
  | [] => []
  | n :: rest => blockOf n ++ poolOf rest

/-- Insert into a risk-sorted list, after every element of strictly smaller
risk and before the first element of greater-or-equal risk. -/
def insortR (x : PasswordMask) : List PasswordMask → List PasswordMask
  | [] => [x]
  | y :: ys => if y.risk_score < x.risk_score then y :: insortR x ys else x :: y :: ys

/-- `compliant_masks.sort(key=lambda x: x.risk_score)` (line 124).  Python's
sort is an ascending stable sort by the key; a stable sort is extensionally
unique, embedded here as insertion sort. -/
def sortByRisk : List PasswordMask → List PasswordMask
  | [] => []
  | x :: xs => insortR x (sortByRisk xs)

/-- The progress line printed per length (line 121). -/
def progressLine (valid total : Nat) : String :=
  "generated " ++ toString valid ++ " valid masks from " ++ toString total ++
    " possible combinations:"

/-- `main` (lines 91-126): parse the argument, enumerate each length, pool the
compliant masks, and output the per-length progress lines followed by the
risk-sorted mask strings.  A raised exception is the `Except.error` case and
produces no output. -/
def runMain (arg : String) : Except String (List String) :=
  match parseArg arg with
  | .error e => .error e
  | .ok (st, en) =>
    let lengths := (pyRange st en).map Int.toNat
    .ok ((lengths.map fun n => progressLine (blockOf n).length (enumerate n).length) ++
      (sortByRisk (poolOf lengths)).map fun pm => pm.mask_string)

/-- Rank of a symbol in the order the code enumerates: `'ulds'`. -/
def symOrd : CharClass → Nat
  | .u => 0
  | .l => 1
  | .d => 2
  | .s => 3

/-- Rank of a symbol in the order claimed by the spec: Lower, Upper, Digit,
Special. -/
def specSymOrd : CharClass → Nat
  | .l => 0
  | .u => 1
  | .d => 2
  | .s => 3

/-- Lexicographic strict order on masks induced by a symbol ranking. -/
def lexLt (ord : CharClass → Nat) : Mask → Mask → Bool
  | _, [] => false
  | [], _ :: _ => true
  | a :: as, b :: bs =>
    if ord a < ord b then true
    else if ord a = ord b then lexLt ord as bs
    else false

/-- Enumeration order across lengths: shorter first, then lexicographic by the
given symbol ranking within one length. -/
def enumLt (ord : CharClass → Nat) (m1 m2 : Mask) : Prop :=
  m1.length < m2.length ∨ (m1.length = m2.length ∧ lexLt ord m1 m2 = true)

/-- The report order: ascending risk score, ties broken by enumeration order
with the given symbol ranking. -/
def rankLt (ord : CharClass → Nat) (a b : PasswordMask) : Prop :=
  a.risk_score < b.risk_score ∨
    (a.risk_score = b.risk_score ∧ enumLt ord a.mask b.mask)

/-- Modelled from the spec: the number of distinct character classes present
in a mask. -/
def distinctClasses (m : Mask) : Nat :=
  ([CharClass.l, CharClass.u, CharClass.d, CharClass.s].filter
    fun c => decide (c ∈ m)).length

/-- Modelled from the spec: the per-symbol friendliness adjustment, stated as
one case split. -/
def symScore (c : CharClass) : Int :=
  if c = .u ∨ c = .s then -10 else if c = .l then 2 else 0

/-- Modelled from the spec: `+5` for every position whose symbol equals the
symbol at the previous position. -/
def adjBonus : Mask → Int
  | [] => 0
  | [_] => 0
  | a :: b :: rest => (if b = a then 5 else 0) + adjBonus (b :: rest)

/-- Modelled from the spec: the rendered form as one `?x` pair per symbol in
sequence order. -/
def renderPairs : Mask → List Char
  | [] => []
  | c :: rest => '?' :: symChar c :: renderPairs rest

/-! ### Helper lemmas -/

/-- `log2floorAux` with enough fuel computes the floor of log base 2. -/
theorem log2floorAux_spec : ∀ fuel n, n ≤ fuel → 1 ≤ n →
    2 ^ log2floorAux fuel n ≤ n ∧ n < 2 ^ (log2floorAux fuel n + 1) := by
  intro fuel
  induction fuel with
  | zero => intro n hn h1; omega
  | succ f ih =>
    intro n hn h1
    by_cases h2 : 2 ≤ n
    · have hrec := ih (n / 2) (by omega) (by omega)
      have e : log2floorAux (f + 1) n = log2floorAux f (n / 2) + 1 := by
        simp [log2floorAux, h2]
      rw [e]
      rcases hrec with ⟨hlo, hhi⟩
      have p1 : (2:Nat) ^ (log2floorAux f (n / 2) + 1) = 2 * 2 ^ log2floorAux f (n / 2) := by
        rw [pow_succ]; ring
      have p2 : (2:Nat) ^ (log2floorAux f (n / 2) + 1 + 1) =
          2 * 2 ^ (log2floorAux f (n / 2) + 1) := by
        rw [pow_succ]; ring
      omega
    · have hn1 : n = 1 := by omega
      subst hn1
      simp [log2floorAux]

/-- `log2floor n` is `⌊log₂ n⌋` for every `n ≥ 1`. -/
theorem log2floor_spec (n : Nat) (h : 1 ≤ n) :
    2 ^ log2floor n ≤ n ∧ n < 2 ^ (log2floor n + 1) :=
  log2floorAux_spec n n le_rfl h

/-- The enumerator yields `4 ^ n` tuples. -/
theorem enumerate_length : ∀ n, (enumerate n).length = 4 ^ n := by
  intro n
  induction n with
  | zero => rfl
  | succ n ih =>
    simp [enumerate, type_strings, ih]
    ring

/-- Every enumerated tuple has the requested length. -/
theorem length_of_mem_enumerate : ∀ n, ∀ m ∈ enumerate n, m.length = n := by
  intro n
  induction n with
  | zero =>
    intro m hm
    simp [enumerate] at hm
    simp [hm]
  | succ n ih =>
    intro m hm
    simp only [enumerate, List.mem_flatMap, List.mem_map] at hm
    obtain ⟨c, _, t, ht, rfl⟩ := hm
    simp [ih t ht]

/-- Every mask appears in the enumeration of its length. -/
theorem enumerate_complete : ∀ m : Mask, m ∈ enumerate m.length := by
  intro m
  induction m with
  | nil => simp [enumerate]
  | cons c t ih =>
    show c :: t ∈ enumerate (t.length + 1)
    simp only [enumerate, List.mem_flatMap, List.mem_map]
    exact ⟨c, by cases c <;> simp [type_strings], t, ih, rfl⟩

theorem lexLt_cons_of_lt (ord : CharClass → Nat) (a b : CharClass) (as bs : Mask)
    (h : ord a < ord b) : lexLt ord (a :: as) (b :: bs) = true := by
  simp [lexLt, h]

theorem lexLt_cons_same (ord : CharClass → Nat) (a : CharClass) (as bs : Mask) :
    lexLt ord (a :: as) (a :: bs) = lexLt ord as bs := by
  simp [lexLt]

/-- One enumeration level preserves the lexicographic ordering. -/
theorem pairwise_enum_flat (n : Nat)
    (hpw : (enumerate n).Pairwise fun a b => lexLt symOrd a b = true) :
    ∀ l : List CharClass, l.Pairwise (fun a b => symOrd a < symOrd b) →
      (l.flatMap fun c => (enumerate n).map (c :: ·)).Pairwise
        fun a b => lexLt symOrd a b = true := by
  intro l hl
  induction l with
  | nil => simp
  | cons c t ih =>
    rw [List.flatMap_cons, List.pairwise_append]
    refine ⟨?_, ih (List.pairwise_cons.mp hl).2, ?_⟩
    · rw [List.pairwise_map]
      exact hpw.imp fun h => by rw [lexLt_cons_same]; exact h
    · intro x hx y hy
      rw [List.mem_map] at hx
      rw [List.mem_flatMap] at hy
      obtain ⟨a, _, rfl⟩ := hx
      obtain ⟨c2, hc2, hy⟩ := hy
      rw [List.mem_map] at hy
      obtain ⟨b, _, rfl⟩ := hy
      exact lexLt_cons_of_lt _ _ _ _ _ ((List.pairwise_cons.mp hl).1 c2 hc2)

/-- The enumeration is strictly sorted in the `'ulds'` lexicographic order. -/
theorem enumerate_pairwise : ∀ n, (enumerate n).Pairwise fun a b => lexLt symOrd a b = true := by
  intro n
  induction n with
  | zero => simp [enumerate]
  | succ n ih => exact pairwise_enum_flat n ih type_strings (by decide)

theorem lexLt_irrefl (ord : CharClass → Nat) : ∀ m : Mask, lexLt ord m m = false := by
  intro m
  induction m with
  | nil => rfl
  | cons c t ih => rw [lexLt_cons_same]; exact ih

/-- The enumeration has no duplicates. -/
theorem enumerate_nodup (n : Nat) : (enumerate n).Nodup :=
  (enumerate_pairwise n).imp fun {a b} h he => by
    subst he
    rw [lexLt_irrefl] at h
    exact Bool.false_ne_true h

/-- The compliance test counts exactly the distinct classes present. -/
theorem assess_mask_iff (m : Mask) : assess_mask m = true ↔ 3 ≤ distinctClasses m := by
  have el := List.count_eq_zero (a := CharClass.l) (l := m)
  have eu := List.count_eq_zero (a := CharClass.u) (l := m)
  have ed := List.count_eq_zero (a := CharClass.d) (l := m)
  have es := List.count_eq_zero (a := CharClass.s) (l := m)
  by_cases hl : CharClass.l ∈ m <;> by_cases hu : CharClass.u ∈ m <;>
    by_cases hd : CharClass.d ∈ m <;> by_cases hs : CharClass.s ∈ m <;>
    simp [assess_mask, distinctClasses, hl, hu, hd, hs, List.count_cons, el, eu, ed, es]

/-- The four class counts partition the mask length. -/
theorem counts_sum (m : Mask) :
    m.count .l + m.count .u + m.count .d + m.count .s = m.length := by
  induction m with
  | nil => rfl
  | cons c t ih => cases c <;> simp [List.count_cons] <;> omega

/-- A compliant mask has at least three symbols. -/
theorem assess_length (m : Mask) (h : assess_mask m = true) : 3 ≤ m.length := by
  have hsum := counts_sum m
  simp only [assess_mask, decide_eq_true_eq] at h
  by_cases h1 : m.count CharClass.l = 0 <;> by_cases h2 : m.count CharClass.u = 0 <;>
    by_cases h3 : m.count CharClass.d = 0 <;> by_cases h4 : m.count CharClass.s = 0 <;>
    simp [List.count_cons, h1, h2, h3, h4] at h <;> omega

/-- The code's per-symbol adjustment agrees with the spec's case split. -/
theorem ufStep_eq_symScore (c : CharClass) : ufStep c = symScore c := by
  cases c <;> decide

/-- The scan loop computes the symbol-score sum plus the adjacency bonuses. -/
theorem ufGo_eq (rest : Mask) : ∀ prev : CharClass,
    ufGo prev rest = (rest.map symScore).sum + adjBonus (prev :: rest) := by
  induction rest with
  | nil => intro prev; simp [ufGo, adjBonus]
  | cons c t ih =>
    intro prev
    simp only [ufGo, List.map_cons, List.sum_cons, adjBonus, ih c, ufStep_eq_symScore]
    ring

/-- `calculate_user_friendliness` is the spec's 100-based sum formula. -/
theorem friendliness_formula : ∀ m : Mask,
    calculate_user_friendliness m = 100 + (m.map symScore).sum + adjBonus m
  | [] => by simp [calculate_user_friendliness, adjBonus]
  | c :: t => by
    simp only [calculate_user_friendliness, ufGo_eq t c, ufStep_eq_symScore,
      List.map_cons, List.sum_cons]
    ring

/-- Joining markers with `'?'` produces the marker-pair rendering. -/
theorem joinSep_renders : ∀ (t : Mask) (x : CharClass),
    joinSepChars (symChar x :: t.map symChar) = symChar x :: renderPairs t := by
  intro t
  induction t with
  | nil => intro x; rfl
  | cons c2 t2 ih =>
    intro x
    simp [List.map_cons, joinSepChars, renderPairs, ih c2]

theorem renderPairs_length : ∀ m : Mask, (renderPairs m).length = 2 * m.length := by
  intro m
  induction m with
  | nil => rfl
  | cons c t ih => simp [renderPairs, ih]; omega

/-- Inserting keeps exactly the old elements plus the new one. -/
theorem insortR_perm (x : PasswordMask) : ∀ l, List.Perm (insortR x l) (x :: l) := by
  intro l
  induction l with
  | nil => exact List.Perm.refl _
  | cons y ys ih =>
    by_cases h : y.risk_score < x.risk_score
    · simp only [insortR, if_pos h]
      exact (ih.cons y).trans (List.Perm.swap x y ys)
    · simp only [insortR, if_neg h]
      exact List.Perm.refl _

theorem insortR_mem {x z : PasswordMask} {l : List PasswordMask} :
    z ∈ insortR x l ↔ z = x ∨ z ∈ l := by
  rw [(insortR_perm x l).mem_iff]
  simp

/-- The sort is a permutation of its input. -/
theorem sortByRisk_perm : ∀ l, List.Perm (sortByRisk l) l := by
  intro l
  induction l with
  | nil => exact List.Perm.refl _
  | cons x xs ih => exact (insortR_perm x (sortByRisk xs)).trans (ih.cons x)

theorem rankLt_risk_le (ord : CharClass → Nat) {a b : PasswordMask} (h : rankLt ord a b) :
    a.risk_score ≤ b.risk_score := by
  rcases h with h | ⟨h, _⟩
  · exact le_of_lt h
  · exact le_of_eq h

/-- Inserting into a report-ordered list preserves the order, provided the new
element relates correctly to every old one. -/
theorem insortR_pairwise (ord : CharClass → Nat) (x : PasswordMask) :
    ∀ l, l.Pairwise (rankLt ord) →
      (∀ y ∈ l, y.risk_score < x.risk_score → rankLt ord y x) →
      (∀ y ∈ l, ¬ y.risk_score < x.risk_score → rankLt ord x y) →
      (insortR x l).Pairwise (rankLt ord) := by
  intro l
  induction l with
  | nil => intro _ _ _; simp [insortR]
  | cons y ys ih =>
    intro hl h1 h2
    by_cases h : y.risk_score < x.risk_score
    · simp only [insortR, if_pos h]
      rw [List.pairwise_cons]
      constructor
      · intro z hz
        rcases insortR_mem.mp hz with rfl | hz
        · exact h1 y (by simp) h
        · exact (List.pairwise_cons.mp hl).1 z hz
      · exact ih (List.pairwise_cons.mp hl).2
          (fun w hw => h1 w (by simp [hw]))
          (fun w hw => h2 w (by simp [hw]))
    · simp only [insortR, if_neg h]
      rw [List.pairwise_cons]
      refine ⟨?_, hl⟩
      intro z hz
      rcases List.mem_cons.mp hz with rfl | hz
      · exact h2 z (by simp) h
      · apply h2 z (by simp [hz])
        have hyz := rankLt_risk_le ord ((List.pairwise_cons.mp hl).1 z hz)
        have hxy := not_lt.mp h
        exact not_lt.mpr (le_trans hxy hyz)

/-- Stability: sorting a list that is in enumeration order produces the full
report order (ascending risk, ties in enumeration order). -/
theorem sortByRisk_stable (ord : CharClass → Nat) :
    ∀ l, l.Pairwise (fun a b => enumLt ord a.mask b.mask) →
      (sortByRisk l).Pairwise (rankLt ord) := by
  intro l
  induction l with
  | nil => intro _; simp [sortByRisk]
  | cons x xs ih =>
    intro hl
    apply insortR_pairwise
    · exact ih (List.pairwise_cons.mp hl).2
    · intro y _ hy
      exact Or.inl hy
    · intro y hy hnlt
      have hmem : y ∈ xs := (sortByRisk_perm xs).subset hy
      rcases eq_or_lt_of_le (not_lt.mp hnlt) with heq | hlt
      · exact Or.inr ⟨heq, (List.pairwise_cons.mp hl).1 y hmem⟩
      · exact Or.inl hlt

/-- Membership in one length's block. -/
theorem blockOf_mem {n : Nat} {pm : PasswordMask} :
    pm ∈ blockOf n ↔ ∃ m, m ∈ enumerate n ∧ pm = makePasswordMask m ∧ assess_mask m = true := by
  constructor
  · intro h
    rw [blockOf, List.mem_filter] at h
    obtain ⟨h1, h2⟩ := h
    rw [List.mem_map] at h1
    obtain ⟨m, hm, rfl⟩ := h1
    exact ⟨m, hm, rfl, h2⟩
  · rintro ⟨m, hm, rfl, hc⟩
    rw [blockOf, List.mem_filter]
    exact ⟨List.mem_map.mpr ⟨m, hm, rfl⟩, hc⟩

/-- Membership in the pooled accumulator. -/
theorem poolOf_mem {pm : PasswordMask} : ∀ {L : List Nat},
    pm ∈ poolOf L ↔ ∃ n ∈ L, pm ∈ blockOf n := by
  intro L
  induction L with
  | nil => simp [poolOf]
  | cons n rest ih => simp [poolOf, List.mem_append, ih]

/-- With strictly ascending lengths the pool is in enumeration order. -/
theorem poolOf_pairwise : ∀ L : List Nat, L.Pairwise (· < ·) →
    (poolOf L).Pairwise fun a b => enumLt symOrd a.mask b.mask := by
  intro L
  induction L with
  | nil => intro _; simp [poolOf]
  | cons n rest ih =>
    intro hL
    show (blockOf n ++ poolOf rest).Pairwise _
    rw [List.pairwise_append]
    refine ⟨?_, ih (List.pairwise_cons.mp hL).2, ?_⟩
    · rw [blockOf]
      apply List.Pairwise.filter
      rw [List.pairwise_map]
      apply List.Pairwise.imp_of_mem ?_ (enumerate_pairwise n)
      intro m1 m2 hm1 hm2 hlex
      right
      rw [show (makePasswordMask m1).mask = m1 from rfl,
        show (makePasswordMask m2).mask = m2 from rfl,
        length_of_mem_enumerate n m1 hm1, length_of_mem_enumerate n m2 hm2]
      exact ⟨rfl, hlex⟩
    · intro x hx y hy
      obtain ⟨m1, hm1, rfl, _⟩ := blockOf_mem.mp hx
      obtain ⟨k, hk, hby⟩ := poolOf_mem.mp hy
      obtain ⟨m2, hm2, rfl, _⟩ := blockOf_mem.mp hby
      left
      rw [show (makePasswordMask m1).mask = m1 from rfl,
        show (makePasswordMask m2).mask = m2 from rfl,
        length_of_mem_enumerate n m1 hm1, length_of_mem_enumerate k m2 hm2]
      exact (List.pairwise_cons.mp hL).1 k hk

/-- The final sorted list holds exactly the compliant scored masks of the
requested lengths. -/
theorem finalList_mem {L : List Nat} {pm : PasswordMask} :
    pm ∈ sortByRisk (poolOf L) ↔
      pm = makePasswordMask pm.mask ∧ pm.mask.length ∈ L ∧ assess_mask pm.mask = true := by
  rw [(sortByRisk_perm (poolOf L)).mem_iff, poolOf_mem]
  constructor
  · rintro ⟨n, hn, hb⟩
    obtain ⟨m, hm, rfl, hc⟩ := blockOf_mem.mp hb
    have hlen := length_of_mem_enumerate n m hm
    refine ⟨rfl, ?_, hc⟩
    rw [show (makePasswordMask m).mask = m from rfl, hlen]
    exact hn
  · rintro ⟨he, hlen, hc⟩
    exact ⟨pm.mask.length, hlen, blockOf_mem.mpr ⟨pm.mask, enumerate_complete pm.mask, he, hc⟩⟩

/-- Two orders that both hold pairwise on one list must agree pairwise on any
two of its members. -/
theorem pairwise_pair_of_both {α : Type} {R S : α → α → Prop} :
    ∀ {l : List α} {x y : α}, l.Pairwise R → l.Pairwise S → x ∈ l → y ∈ l →
      x = y ∨ (R x y ∧ S x y) ∨ (R y x ∧ S y x) := by
  intro l
  induction l with
  | nil =>
    intro x y _ _ hx
    simp at hx
  | cons a t ih =>
    intro x y hR hS hx hy
    rcases List.mem_cons.mp hx with hxa | hxt
    · subst hxa
      rcases List.mem_cons.mp hy with hya | hyt
      · exact Or.inl hya.symm
      · exact Or.inr (Or.inl ⟨(List.pairwise_cons.mp hR).1 y hyt, (List.pairwise_cons.mp hS).1 y hyt⟩)
    · rcases List.mem_cons.mp hy with hya | hyt
      · subst hya
        exact Or.inr (Or.inr ⟨(List.pairwise_cons.mp hR).1 x hxt, (List.pairwise_cons.mp hS).1 x hxt⟩)
      · exact ih (List.pairwise_cons.mp hR).2 (List.pairwise_cons.mp hS).2 hxt hyt

/-- Arguments accepted by `parseArg` always carry `start < end`. -/
theorem parseArg_lt (s : String) (st en : Int) (h : parseArg s = .ok (st, en)) : st < en := by
  simp only [parseArg] at h
  repeat' split at h
  all_goals first
    | omega
    | (injection h with h2
       injection h2 with h3 h4
       omega)
    | simp_all

/-! ### Claim theorems -/

/-- C1 (amended): for every requested length `n` the enumerator produces the
complete Cartesian power of the 4-symbol alphabet: exactly `4^n` distinct
masks, each of length `n`, every length-`n` mask among them, and the sequence
is in lexicographic product order for the symbol order Upper, Lower, Digit,
Special (the `'ulds'` order of the source, not the Lower-first order the
claim states). -/
theorem mask_enumerator_spec (n : Nat) :
    (enumerate n).length = 4 ^ n ∧
    (∀ m ∈ enumerate n, m.length = n) ∧
    (enumerate n).Nodup ∧
    ((enumerate n).Pairwise fun a b => lexLt symOrd a b = true) ∧
    (∀ m : Mask, m.length = n → m ∈ enumerate n) :=
  ⟨enumerate_length n, length_of_mem_enumerate n, enumerate_nodup n, enumerate_pairwise n,
    fun m hm => hm ▸ enumerate_complete m⟩

/-- C1 witness: the completeness component at a concrete mask and length. -/
theorem mask_enumerator_spec_witness :
    [CharClass.u, CharClass.l] ∈ enumerate 2 :=
  (mask_enumerator_spec 2).2.2.2.2 [CharClass.u, CharClass.l] (by decide)

/-- C1 counterexample: at length 1 the produced sequence is `u, l, d, s`,
which is not ordered by the claimed Lower-first symbol order (Lower should
precede Upper). -/
theorem mask_enumerator_spec_counterexample :
    enumerate 1 = [[CharClass.u], [CharClass.l], [CharClass.d], [CharClass.s]] ∧
    ¬ ((enumerate 1).Pairwise fun a b => lexLt specSymOrd a b = true) := by
  constructor
  · decide
  · decide

/-- C2 (amended): parsing admits no inverted range — any accepted argument has
`start < end` — but a non-positive length is not rejected: the single length
`0` parses successfully and the program performs generation, printing a
progress line for the empty enumeration. -/
theorem argument_validation :
    (∀ (s : String) (st en : Int), parseArg s = .ok (st, en) → st < en) ∧
    runMain "0" = .ok ["generated 0 valid masks from 1 possible combinations:"] :=
  ⟨parseArg_lt, by rfl⟩

/-- C2 witness: a well-formed range is accepted and indeed ascending. -/
theorem argument_validation_witness :
    (2:Int) < 3 ∧ runMain "0" = .ok ["generated 0 valid masks from 1 possible combinations:"] :=
  ⟨argument_validation.1 "2-3" 2 3 (by rfl), argument_validation.2⟩

/-- C2 counterexample: the argument `"0"` denotes the non-positive length 0,
yet parsing succeeds and the run produces output instead of failing with a
validation error before generation. -/
theorem argument_validation_counterexample :
    parseArg "0" = .ok (0, 1) ∧
    runMain "0" = .ok ["generated 0 valid masks from 1 possible combinations:"] :=
  ⟨by rfl, by rfl⟩

/-- C4: the risk score divides entropy by friendliness when friendliness is
non-zero (so a negative friendliness divides normally and can produce a
negative risk score, witnessed by the alternating Upper/Special mask of
length 12), and divides by the 0.001 floor — i.e. multiplies by 1000 —
exactly when friendliness is zero, so that an entropy-10 zero-friendliness
mask would score 10000; no division by zero can occur in either branch. -/
theorem risk_score_spec (m : Mask) :
    (calculate_user_friendliness m ≠ 0 →
      risk_score m = (calculate_entropy m : ℚ) / (calculate_user_friendliness m : ℚ)) ∧
    (calculate_user_friendliness m = 0 →
      risk_score m = (calculate_entropy m : ℚ) / (1 / 1000) ∧
      risk_score m = (calculate_entropy m : ℚ) * 1000) ∧
    (calculate_user_friendliness m = 0 → calculate_entropy m = 10 →
      risk_score m = 10000) ∧
    risk_score [CharClass.u, CharClass.s, CharClass.u, CharClass.s, CharClass.u, CharClass.s,
      CharClass.u, CharClass.s, CharClass.u, CharClass.s, CharClass.u, CharClass.s] < 0 := by
  have hmul : ∀ m2 : Mask, calculate_user_friendliness m2 = 0 →
      risk_score m2 = (calculate_entropy m2 : ℚ) * 1000 := by
    intro m2 h
    simp only [risk_score, h]
    norm_num
    rw [one_div, div_eq_mul_inv, inv_inv]
  refine ⟨?_, ?_, ?_, ?_⟩
  · intro h
    simp [risk_score, h]
  · intro h
    refine ⟨by simp [risk_score, h], hmul m h⟩
  · intro h h10
    rw [hmul m h, h10]
    norm_num
  · have hf : calculate_user_friendliness [CharClass.u, CharClass.s, CharClass.u, CharClass.s,
        CharClass.u, CharClass.s, CharClass.u, CharClass.s, CharClass.u, CharClass.s,
        CharClass.u, CharClass.s] = -20 := by decide
    have he : calculate_entropy [CharClass.u, CharClass.s, CharClass.u, CharClass.s,
        CharClass.u, CharClass.s, CharClass.u, CharClass.s, CharClass.u, CharClass.s,
        CharClass.u, CharClass.s] = 57 := by decide
    rw [show risk_score [CharClass.u, CharClass.s, CharClass.u, CharClass.s, CharClass.u,
        CharClass.s, CharClass.u, CharClass.s, CharClass.u, CharClass.s, CharClass.u,
        CharClass.s] = (calculate_entropy [CharClass.u, CharClass.s, CharClass.u, CharClass.s,
        CharClass.u, CharClass.s, CharClass.u, CharClass.s, CharClass.u, CharClass.s,
        CharClass.u, CharClass.s] : ℚ) / (calculate_user_friendliness [CharClass.u, CharClass.s,
        CharClass.u, CharClass.s, CharClass.u, CharClass.s, CharClass.u, CharClass.s,
        CharClass.u, CharClass.s, CharClass.u, CharClass.s] : ℚ) from by
      simp [risk_score, hf]]
    rw [he, hf]
    norm_num

/-- C4 witness: the non-zero branch at a concrete compliant mask and the zero
branch at the 19-special mask whose friendliness is exactly 0. -/
theorem risk_score_spec_witness :
    risk_score [CharClass.l, CharClass.u, CharClass.d] =
      (calculate_entropy [CharClass.l, CharClass.u, CharClass.d] : ℚ) /
        (calculate_user_friendliness [CharClass.l, CharClass.u, CharClass.d] : ℚ) ∧
    risk_score (List.replicate 19 CharClass.s) =
      (calculate_entropy (List.replicate 19 CharClass.s) : ℚ) * 1000 :=
  ⟨(risk_score_spec [CharClass.l, CharClass.u, CharClass.d]).1 (by decide),
    ((risk_score_spec (List.replicate 19 CharClass.s)).2.1 (by decide)).2⟩

/-- C5: the compliance predicate holds exactly when at least 3 of the 4
character classes occur in the mask; `(l,l,d)` fails, `(l,u,d)` passes. -/
theorem compliance_rule (m : Mask) :
    (assess_mask m = true ↔ 3 ≤ distinctClasses m) ∧
    assess_mask [CharClass.l, CharClass.l, CharClass.d] = false ∧
    assess_mask [CharClass.l, CharClass.u, CharClass.d] = true :=
  ⟨assess_mask_iff m, by decide, by decide⟩

/-- C5 witness: the predicate applied through the equivalence at a concrete
mask with three distinct classes. -/
theorem compliance_rule_witness :
    assess_mask [CharClass.l, CharClass.u, CharClass.d] = true :=
  (compliance_rule [CharClass.l, CharClass.u, CharClass.d]).1.mpr (by decide)

/-- C6: friendliness is 100 plus the per-symbol adjustments (−10 for Upper or
Special, +2 for Lower, 0 for Digit) plus +5 per position equal to its
predecessor, with no clamping; `(l,l)` scores 109 and `(u,s)` scores 80. -/
theorem friendliness_spec (m : Mask) :
    calculate_user_friendliness m = 100 + (m.map symScore).sum + adjBonus m ∧
    calculate_user_friendliness [CharClass.l, CharClass.l] = 109 ∧
    calculate_user_friendliness [CharClass.u, CharClass.s] = 80 :=
  ⟨friendliness_formula m, by decide, by decide⟩

/-- C7 (amended): the final list is a permutation of the pooled compliant
masks of the requested lengths, sorted ascending by risk score, with ties in
the original enumeration order — lengths ascending, and the `'ulds'`
(Upper-first) lexicographic order within one length, not the Lower-first
order the claim states. -/
theorem ranker_spec (lengths : List Nat) (h : lengths.Pairwise (· < ·)) :
    List.Perm (sortByRisk (poolOf lengths)) (poolOf lengths) ∧
    (sortByRisk (poolOf lengths)).Pairwise (rankLt symOrd) ∧
    (∀ pm : PasswordMask, pm ∈ sortByRisk (poolOf lengths) ↔
      (pm = makePasswordMask pm.mask ∧ pm.mask.length ∈ lengths ∧
        assess_mask pm.mask = true)) :=
  ⟨sortByRisk_perm _, sortByRisk_stable symOrd _ (poolOf_pairwise lengths h),
    fun _ => finalList_mem⟩

/-- C7 witness: the full report order at the concrete length list `[3]`. -/
theorem ranker_spec_witness :
    (sortByRisk (poolOf [3])).Pairwise (rankLt symOrd) :=
  (ranker_spec [3] (by decide)).2.1

/-- C7 counterexample: for requested length 3 the report is NOT ordered with
ties broken by the claimed Lower-first enumeration order: the equal-risk
records for `u l d` and `l u d` appear in `'ulds'` order, which contradicts
the Lower-first tie-break. -/
theorem ranker_spec_counterexample :
    ¬ ((sortByRisk (poolOf [3])).Pairwise (rankLt specSymOrd)) := by
  intro hspec
  have hcode : (sortByRisk (poolOf [3])).Pairwise (rankLt symOrd) :=
    sortByRisk_stable symOrd _ (poolOf_pairwise [3] (by decide))
  have hxm : makePasswordMask [CharClass.u, CharClass.l, CharClass.d] ∈
      sortByRisk (poolOf [3]) := finalList_mem.mpr ⟨rfl, by decide, by decide⟩
  have hym : makePasswordMask [CharClass.l, CharClass.u, CharClass.d] ∈
      sortByRisk (poolOf [3]) := finalList_mem.mpr ⟨rfl, by decide, by decide⟩
  have hrisk : (makePasswordMask [CharClass.u, CharClass.l, CharClass.d]).risk_score =
      (makePasswordMask [CharClass.l, CharClass.u, CharClass.d]).risk_score := by rfl
  rcases pairwise_pair_of_both hcode hspec hxm hym with heq | ⟨_, hS⟩ | ⟨hR, _⟩
  · have : ([CharClass.u, CharClass.l, CharClass.d] : Mask) =
        [CharClass.l, CharClass.u, CharClass.d] := congrArg PasswordMask.mask heq
    exact absurd this (by decide)
  · rcases hS with hlt | ⟨_, henum⟩
    · rw [hrisk] at hlt
      exact lt_irrefl _ hlt
    · rcases henum with hlen | ⟨_, hlex⟩
      · exact absurd hlen (by decide)
      · exact absurd hlex (by decide)
  · rcases hR with hlt | ⟨_, henum⟩
    · rw [hrisk] at hlt
      exact lt_irrefl _ hlt
    · rcases henum with hlen | ⟨_, hlex⟩
      · exact absurd hlen (by decide)
      · exact absurd hlex (by decide)

/-- C8: the rendered string of a non-empty mask is one `?x` pair per symbol
in sequence order (`l`, `u`, `d`, `s` for Lower, Upper, Digit, Special), with
total length `2n` and nothing besides the pairs. -/
theorem mask_string_spec (m : Mask) (h : m ≠ []) :
    (mask_string m).data = renderPairs m ∧ (mask_string m).length = 2 * m.length := by
  obtain ⟨c, t, rfl⟩ := List.exists_cons_of_ne_nil h
  constructor
  · show '?' :: joinSepChars ((c :: t).map symChar) = _
    rw [List.map_cons, joinSep_renders t c]
    rfl
  · show ('?' :: joinSepChars ((c :: t).map symChar)).length = _
    rw [List.map_cons, joinSep_renders t c]
    simp [renderPairs_length t]
    omega

/-- C8 witness: the rendering facts at the concrete mask `u l d`. -/
theorem mask_string_spec_witness :
    (mask_string [CharClass.u, CharClass.l, CharClass.d]).data =
      renderPairs [CharClass.u, CharClass.l, CharClass.d] ∧
    (mask_string [CharClass.u, CharClass.l, CharClass.d]).length =
      2 * ([CharClass.u, CharClass.l, CharClass.d] : Mask).length :=
  mask_string_spec [CharClass.u, CharClass.l, CharClass.d] (by decide)

/-- C9: the pipeline is deterministic — the run function is a pure function
of the argument, and every cached field of a `PasswordMask` is the stated
pure function of the symbol sequence alone, so equal masks yield equal
records. -/
theorem deterministic_pipeline :
    (∀ arg : String, runMain arg = runMain arg) ∧
    (∀ m : Mask, makePasswordMask m =
      { mask := m, entropy := calculate_entropy m, compliant := assess_mask m,
        user_friendliness := calculate_user_friendliness m,
        mask_string := mask_string m, risk_score := risk_score m }) ∧
    (∀ m1 m2 : Mask, m1 = m2 → makePasswordMask m1 = makePasswordMask m2) :=
  ⟨fun _ => rfl, fun _ => rfl, fun _ _ h => h ▸ rfl⟩

/-- C9 witness: record equality from mask equality at a concrete mask. -/
theorem deterministic_pipeline_witness :
    makePasswordMask [CharClass.l] = makePasswordMask [CharClass.l] :=
  deterministic_pipeline.2.2 [CharClass.l] [CharClass.l] (by rfl)

/-- C10: no mask of length at most 2 is compliant; the valid-mask counts for
lengths 1 and 2 are 0; and every record in any final report has a mask of
length at least 3. -/
theorem short_mask_spec :
    (∀ m : Mask, m.length ≤ 2 → assess_mask m = false) ∧
    (blockOf 1).length = 0 ∧ (blockOf 2).length = 0 ∧
    (∀ (lengths : List Nat) (pm : PasswordMask),
      pm ∈ sortByRisk (poolOf lengths) → 3 ≤ pm.mask.length) := by
  refine ⟨?_, by decide, by decide, ?_⟩
  · intro m hm
    cases hb : assess_mask m
    · rfl
    · exact absurd (assess_length m hb) (by omega)
  · intro L pm hpm
    obtain ⟨_, _, hc⟩ := finalList_mem.mp hpm
    exact assess_length _ hc

/-- C10 witness: the compliance failure at the concrete length-2 mask `l u`. -/
theorem short_mask_spec_witness :
    assess_mask [CharClass.l, CharClass.u] = false :=
  short_mask_spec.1 [CharClass.l, CharClass.u] (by decide)
